import Mathlib

/-!
Verification of `ansys.tools.example_coverage.example_coverage` (docstring
example coverage tool).

The Python module is shallowly embedded: the abstract syntax tree nodes that
`create_report` inspects become inductive types, the classification loops
become structurally recursive functions returning the `(missing, covered)`
name lists in loop order, and `find_files` acts on an explicit directory-tree
value.  Python string primitives (`startswith`, `endswith`, `in`, `sorted`)
are modelled on `List Char`, which matches Python's code-point semantics.
-/

namespace ExampleCoverage

/-- Python `s.startswith(pre)`: `pre.toList` is a list prefix of `s.toList`. -/
def strStartsWith (s pre : String) : Bool := decide (pre.toList <+: s.toList)

/-- Python `s.endswith(suf)`: `suf.toList` is a list suffix of `s.toList`. -/
def strEndsWith (s suf : String) : Bool := decide (suf.toList <:+ s.toList)

/-- Python `sub in s` (substring containment). -/
def strContains (s sub : String) : Bool := decide (sub.toList <:+: s.toList)

/-- The condition the source tests, negated: the source classifies a node as
missing when `ast.get_docstring(node) is None or "Example" not in
ast.get_docstring(node)`; this is the complementary "has a docstring that
contains the literal text Example". -/
def docContainsExample : Option String → Bool
  | none => false
  | some s => strContains s "Example"

/-- A decorator expression as inspected by `create_report`: an `ast.Name`
node (carrying its `id`), an `ast.Attribute` node (carrying its `attr`,
the trailing component, as in `x.setter`), or any other expression kind
(e.g. an `ast.Call`), which the source ignores. -/
inductive Decorator where
  | nameDeco (id : String)
  | attrDeco (a : String)
  | otherDeco
deriving DecidableEq

/-- An `ast.FunctionDef` node as used by the source: its `name`, the result
of `ast.get_docstring` on it, and its `decorator_list`. -/
structure FunctionDef where
  name : String
  docstring : Option String
  decorator_list : List Decorator
deriving DecidableEq

/-- A statement node of a module body (or class body): a plain function
definition (`ast.FunctionDef`), an async function definition
(`ast.AsyncFunctionDef`, a distinct node class in Python's `ast`), a class
definition (`ast.ClassDef` with its name, docstring and body), or any other
statement. -/
inductive Stmt where
  | functionDef (f : FunctionDef)
  | asyncFunctionDef (f : FunctionDef)
  | classDef (name : String) (docstring : Option String) (body : List Stmt)
  | otherStmt

/-- `[node for node in body if isinstance(node, ast.FunctionDef)]`.
`ast.AsyncFunctionDef` is not a subclass of `ast.FunctionDef`, so async
definitions are not collected. -/
def function_definitions (body : List Stmt) : List FunctionDef :=
  body.filterMap fun node =>
    match node with
    | Stmt.functionDef f => some f
    | _ => none

/-- `[node for node in tree.body if isinstance(node, ast.ClassDef)]`,
keeping each class's name, docstring and body. -/
def class_definitions (body : List Stmt) : List (String × Option String × List Stmt) :=
  body.filterMap fun node =>
    match node with
    | Stmt.classDef n d b => some (n, d, b)
    | _ => none

/-- The loop over `function_definitions` in `create_report`: private
functions are skipped, the rest go to `missing_functions` or
`covered_functions` by the docstring-contains-"Example" test.  The result is
`(missing_functions, covered_functions)` in loop order. -/
def classify_functions : List FunctionDef → List String × List String
  | [] => ([], [])
  | f :: rest =>
    let r := classify_functions rest
    if strStartsWith f.name "_" then r
    else if docContainsExample f.docstring then (r.1, f.name :: r.2)
    else (f.name :: r.1, r.2)

/-- The class part of the loop over `class_definitions`: every class (private
or not) goes to `missing_classes` or `covered_classes` by the same docstring
test.  The result is `(missing_classes, covered_classes)` in loop order. -/
def classify_classes : List (String × Option String × List Stmt) → List String × List String
  | [] => ([], [])
  | c :: rest =>
    let r := classify_classes rest
    if docContainsExample c.2.1 then (r.1, c.1 :: r.2)
    else (c.1 :: r.1, r.2)

/-- `method_definitions.extend([node for node in class_def.body if
isinstance(node, ast.FunctionDef)])` accumulated over all classes. -/
def method_definitions (classes : List (String × Option String × List Stmt)) :
    List FunctionDef :=
  classes.flatMap fun c => function_definitions c.2.2

/-- The `for decorator in method.decorator_list` loop: each bare `property`
name decorator appends the method name to `missing_methods` or
`covered_methods` by the docstring test and sets `prop`; each attribute
decorator whose `attr` is `"setter"` appends to `covered_methods` and sets
`prop`; every other decorator is ignored.  The result is the pair of lists
this method contributes, in loop order, together with the final `prop`
flag. -/
def decorator_pass (mname : String) (doc : Option String) :
    List Decorator → List String × List String × Bool
  | [] => ([], [], false)
  | d :: rest =>
    let r := decorator_pass mname doc rest
    match d with
    | Decorator.nameDeco id =>
      if id = "property" then
        if docContainsExample doc then (r.1, mname :: r.2.1, true)
        else (mname :: r.1, r.2.1, true)
      else r
    | Decorator.attrDeco a =>
      if a = "setter" then (r.1, mname :: r.2.1, true) else r
    | Decorator.otherDeco => r

/-- One iteration of the `for method in method_definitions` loop: the
decorator loop runs first; if it set `prop` the method is done (`continue`);
otherwise a private name is skipped, and the rest are classified by the
docstring test.  Returns this method's contribution to
`(missing_methods, covered_methods)`. -/
def classify_method (m : FunctionDef) : List String × List String :=
  let r := decorator_pass m.name m.docstring m.decorator_list
  if r.2.2 then (r.1, r.2.1)
  else if strStartsWith m.name "_" then (r.1, r.2.1)
  else if docContainsExample m.docstring then (r.1, m.name :: r.2.1)
  else (m.name :: r.1, r.2.1)

/-- The whole method loop: contributions of the methods in order. -/
def classify_methods : List FunctionDef → List String × List String
  | [] => ([], [])
  | m :: rest =>
    let r := classify_methods rest
    let c := classify_method m
    (c.1 ++ r.1, c.2 ++ r.2)

/-- Per-module result of `create_report`'s analysis:
`all_methods_without_example[file] = missing_functions + missing_classes +
missing_methods` and the analogous covered list. -/
def classify_module (body : List Stmt) : List String × List String :=
  let fr := classify_functions (function_definitions body)
  let cr := classify_classes (class_definitions body)
  let mr := classify_methods (method_definitions (class_definitions body))
  (fr.1 ++ cr.1 ++ mr.1, fr.2 ++ cr.2 ++ mr.2)

/-- `missing = len(all_methods_without_example[file_name])`;
`total = missing + len(all_methods_with_example[file_name])`.
Returned as `(total, missing)`. -/
def module_counts (body : List Stmt) : Nat × Nat :=
  let missing := (classify_module body).1.length
  let total := missing + (classify_module body).2.length
  (total, missing)

/-- `covered = total - missing; percentage_covered = covered/total*100 if
total else 100`, over the exact rationals. -/
def percentage_covered (total missing : Nat) : ℚ :=
  let covered := total - missing
  if total ≠ 0 then (covered : ℚ) / (total : ℚ) * 100 else 100

/-- The package-wide accumulation at the end of `create_report`: the covered
and missing lists of every module are concatenated;
`package_total = len(with) + len(without)`, `package_missing = len(without)`.
Returned as `(package_total, package_missing)`. -/
def package_counts (mods : List (List Stmt)) : Nat × Nat :=
  let withEx := (mods.map fun b => (classify_module b).2).flatten
  let withoutEx := (mods.map fun b => (classify_module b).1).flatten
  (withEx.length + withoutEx.length, withoutEx.length)

/-! ### The directory model and `find_files` -/

/-- An entry of the scanned directory tree: a file or a subdirectory. -/
inductive FSEntry where
  | file (name : String)
  | dir (name : String) (entries : List FSEntry)

/-- `os.listdir(directory_path)`: the names of the direct entries. -/
def listdir (entries : List FSEntry) : List String :=
  entries.map fun e =>
    match e with
    | FSEntry.file n => n
    | FSEntry.dir n _ => n

mutual
/-- `pathlib.Path(directory_path).rglob('*.py')` with `str(path)` applied,
restricted to one entry: the entry itself (file or directory) if its own
name matches `*.py`, followed by the matches inside it.  Paths are built
below the accumulated path `pre`; `/` stands for `os.path.sep`. -/
def rglobPyEntry : String → FSEntry → List String
  | pre, FSEntry.file n => if strEndsWith n ".py" then [pre ++ n] else []
  | pre, FSEntry.dir n sub =>
    (if strEndsWith n ".py" then [pre ++ n] else []) ++ rglobPy (pre ++ n ++ "/") sub

/-- `pathlib.Path(directory_path).rglob('*.py')` over a list of entries. -/
def rglobPy : String → List FSEntry → List String
  | _, [] => []
  | pre, e :: rest => rglobPyEntry pre e ++ rglobPy pre rest
end

/-- `pathlib.Path(p).suffix == ".py"`: the name ends in `".py"` and the
final dot is not its first character (pathlib treats a leading dot as part
of the stem, so the name `".py"` itself has empty suffix). -/
def pySuffix (n : String) : Bool := strEndsWith n ".py" && !(n == ".py")

/-- The `modules` list comprehension of `find_files`: in recursive mode the
`rglob('*.py')` results whose path does not end with `"__init__.py"`; in
non-recursive mode the direct entries that are files, have suffix `.py` and
do not end with `"__init__.py"`, joined to the directory path. -/
def candidate_modules (dp : String) (root : List FSEntry) (recursive : Bool) :
    List String :=
  if recursive then
    (rglobPy (dp ++ "/") root).filter fun p => !(strEndsWith p "__init__.py")
  else
    root.filterMap fun e =>
      match e with
      | FSEntry.file n =>
        if pySuffix n && !(strEndsWith n "__init__.py") then some (dp ++ "/" ++ n)
        else none
      | FSEntry.dir _ _ => none

/-- Python's string `<=`: lexicographic comparison of the code-point lists. -/
def charListLe : List Char → List Char → Bool
  | [], _ => true
  | _ :: _, [] => false
  | a :: as, b :: bs => if a < b then true else if b < a then false else charListLe as bs

/-- The order `sorted` sorts by, as a relation on full path strings. -/
def strLeP (a b : String) : Prop := charListLe a.toList b.toList = true

instance : DecidableRel strLeP := fun a b =>
  instDecidableEqBool (charListLe a.toList b.toList) true

/-- `find_files(directory_path, recursive)`: raises (models as `.error`)
when `os.listdir` is empty or when the filtered `modules` list is empty;
otherwise returns `sorted(modules)`. -/
def find_files (dp : String) (root : List FSEntry) (recursive : Bool) :
    Except String (List String) :=
  if (listdir root).isEmpty then
    Except.error ("There are no python source files in " ++ dp ++ ".")
  else if (candidate_modules dp root recursive).isEmpty then
    Except.error ("No python modules found in: " ++ dp ++ ".")
  else
    Except.ok (List.insertionSort strLeP (candidate_modules dp root recursive))

mutual
/-- All files (not directories) inside one entry, as full paths: the domain
over which the spec's "collects every file ending in the source-file
extension" is stated. -/
def filePathsEntry : String → FSEntry → List String
  | pre, FSEntry.file n => [pre ++ n]
  | pre, FSEntry.dir n sub => filePaths (pre ++ n ++ "/") sub

/-- All files (not directories) in the tree, as full paths. -/
def filePaths : String → List FSEntry → List String
  | _, [] => []
  | pre, e :: rest => filePathsEntry pre e ++ filePaths pre rest
end

mutual
/-- The spec-side collector for the file-discovery claim: the files (not
directories) of one entry whose own name ends in the source extension
`.py`, as full paths. -/
def pyFilePathsEntry : String → FSEntry → List String
  | pre, FSEntry.file n => if strEndsWith n ".py" then [pre ++ n] else []
  | pre, FSEntry.dir n sub => pyFilePaths (pre ++ n ++ "/") sub

/-- The spec-side collector over a list of entries. -/
def pyFilePaths : String → List FSEntry → List String
  | _, [] => []
  | pre, e :: rest => pyFilePathsEntry pre e ++ pyFilePaths pre rest
end

/-! ### Decorator-shape predicates used to state the claims -/

/-- A bare `property` decorator (`ast.Name` with `id == "property"`). -/
def isPropertyDeco : Decorator → Bool
  | Decorator.nameDeco id => id == "property"
  | _ => false

/-- A `<x>.setter` decorator (`ast.Attribute` with `attr == "setter"`). -/
def isSetterDeco : Decorator → Bool
  | Decorator.attrDeco a => a == "setter"
  | _ => false

/-- A decorator that fires one of the two special method rules. -/
def relevantDeco (d : Decorator) : Bool := isPropertyDeco d || isSetterDeco d

/-! ### Lemmas about the lexicographic order -/

lemma charListLe_nil (bs : List Char) : charListLe [] bs = true := rfl

lemma charListLe_cons_nil (a : Char) (as : List Char) : charListLe (a :: as) [] = false := rfl

lemma charListLe_cons (a b : Char) (as bs : List Char) :
    charListLe (a :: as) (b :: bs) =
      if a < b then true else if b < a then false else charListLe as bs := rfl

lemma charListLe_total : ∀ as bs : List Char, charListLe as bs = true ∨ charListLe bs as = true := by
  intro as
  induction as with
  | nil => intro bs; left; exact charListLe_nil bs
  | cons a as ih =>
    intro bs
    cases bs with
    | nil => right; exact charListLe_nil _
    | cons b bs =>
      rw [charListLe_cons, charListLe_cons]
      by_cases hab : a < b
      · left; simp [hab]
      · by_cases hba : b < a
        · right; simp [hba]
        · rcases ih bs with h | h
          · left; simp [hab, hba, h]
          · right; simp [hab, hba, h]

lemma charListLe_trans : ∀ as bs cs : List Char,
    charListLe as bs = true → charListLe bs cs = true → charListLe as cs = true := by
  intro as
  induction as with
  | nil => intro bs cs _ _; exact charListLe_nil cs
  | cons a as ih =>
    intro bs cs h1 h2
    cases bs with
    | nil => rw [charListLe_cons_nil] at h1; exact absurd h1 (by simp)
    | cons b bs =>
      cases cs with
      | nil => rw [charListLe_cons_nil] at h2; exact absurd h2 (by simp)
      | cons c cs =>
        rw [charListLe_cons] at h1 h2 ⊢
        by_cases hab : a < b
        · by_cases hbc : b < c
          · simp [lt_trans hab hbc]
          · by_cases hcb : c < b
            · simp [hbc, hcb] at h2
            · have hbceq : b = c := le_antisymm (not_lt.mp hcb) (not_lt.mp hbc)
              subst hbceq
              simp [hab]
        · by_cases hba : b < a
          · simp [hab, hba] at h1
          · have habeq : a = b := le_antisymm (not_lt.mp hba) (not_lt.mp hab)
            subst habeq
            simp only [if_neg hab, lt_irrefl, ite_false] at h1
            by_cases hac : a < c
            · simp [hac]
            · by_cases hca : c < a
              · simp [hac, hca] at h2
              · simp only [if_neg hac, if_neg hca] at h2 ⊢
                exact ih bs cs h1 h2

instance : IsTotal String strLeP := ⟨fun a b => charListLe_total a.toList b.toList⟩

instance : IsTrans String strLeP :=
  ⟨fun a b c => charListLe_trans a.toList b.toList c.toList⟩

/-- Appending on the left preserves a string suffix. -/
lemma strEndsWith_append (pre s suf : String) (h : strEndsWith s suf = true) :
    strEndsWith (pre ++ s) suf = true := by
  unfold strEndsWith at h ⊢
  simp only [decide_eq_true_eq] at h ⊢
  have hd : (pre ++ s).toList = pre.toList ++ s.toList := String.data_append pre s
  rw [hd]
  exact h.trans (List.suffix_append _ _)

/-! ### Characterizations of the classification passes -/

/-- The function loop keeps exactly the non-private functions, split by the
docstring test, names in source order. -/
lemma classify_functions_spec (fns : List FunctionDef) :
    classify_functions fns =
      ((fns.filter fun f => !strStartsWith f.name "_" && !docContainsExample f.docstring).map
          (fun f => f.name),
       (fns.filter fun f => !strStartsWith f.name "_" && docContainsExample f.docstring).map
          (fun f => f.name)) := by
  induction fns with
  | nil => rfl
  | cons f rest ih =>
    simp only [classify_functions, ih, List.filter_cons]
    by_cases h1 : strStartsWith f.name "_"
    · simp [h1]
    · by_cases h2 : docContainsExample f.docstring
      · simp [h1, h2]
      · simp [h1, h2]

/-- The class part of the loop classifies every class, by name and docstring
only, split by the docstring test. -/
lemma classify_classes_spec (cls : List (String × Option String × List Stmt)) :
    classify_classes cls =
      (((cls.map fun c => (c.1, c.2.1)).filter fun p => !docContainsExample p.2).map
          (fun p => p.1),
       ((cls.map fun c => (c.1, c.2.1)).filter fun p => docContainsExample p.2).map
          (fun p => p.1)) := by
  induction cls with
  | nil => rfl
  | cons c rest ih =>
    simp only [classify_classes, ih, List.map_cons, List.filter_cons]
    by_cases h : docContainsExample c.2.1
    · simp [h]
    · simp [h]

/-- Every name the decorator loop emits is the method's own name, the emitted
entries are counted by the relevant decorators, and the `prop` flag records
whether any relevant decorator occurred. -/
lemma decorator_pass_spec (mname : String) (doc : Option String) (ds : List Decorator) :
    (∀ x ∈ (decorator_pass mname doc ds).1, x = mname) ∧
    (∀ x ∈ (decorator_pass mname doc ds).2.1, x = mname) ∧
    ((decorator_pass mname doc ds).1.length + (decorator_pass mname doc ds).2.1.length
      = ds.countP relevantDeco) ∧
    ((decorator_pass mname doc ds).2.2 = ds.any relevantDeco) := by
  induction ds with
  | nil => exact ⟨by simp [decorator_pass], by simp [decorator_pass], rfl, rfl⟩
  | cons d rest ih =>
    obtain ⟨ih1, ih2, ih3, ih4⟩ := ih
    cases d with
    | nameDeco id =>
      by_cases hp : id = "property"
      · have hrel : relevantDeco (Decorator.nameDeco id) = true := by
          simp [relevantDeco, isPropertyDeco, hp]
        have hc : (Decorator.nameDeco id :: rest).countP relevantDeco
            = rest.countP relevantDeco + 1 := by
          simp [List.countP_cons, hrel]
        have ha : (Decorator.nameDeco id :: rest).any relevantDeco = true := by
          simp [List.any_cons, hrel]
        by_cases hd : docContainsExample doc
        · have e : decorator_pass mname doc (Decorator.nameDeco id :: rest)
              = ((decorator_pass mname doc rest).1,
                 mname :: (decorator_pass mname doc rest).2.1, true) := by
            simp [decorator_pass, hp, hd]
          rw [e, hc, ha]
          refine ⟨ih1, ?_, ?_, rfl⟩
          · intro x hx
            rcases List.mem_cons.mp hx with h | h
            · exact h
            · exact ih2 x h
          · simp only [List.length_cons]
            omega
        · have e : decorator_pass mname doc (Decorator.nameDeco id :: rest)
              = (mname :: (decorator_pass mname doc rest).1,
                 (decorator_pass mname doc rest).2.1, true) := by
            simp [decorator_pass, hp, hd]
          rw [e, hc, ha]
          refine ⟨?_, ih2, ?_, rfl⟩
          · intro x hx
            rcases List.mem_cons.mp hx with h | h
            · exact h
            · exact ih1 x h
          · simp only [List.length_cons]
            omega
      · have hrel : relevantDeco (Decorator.nameDeco id) = false := by
          simp [relevantDeco, isPropertyDeco, isSetterDeco, hp]
        have hc : (Decorator.nameDeco id :: rest).countP relevantDeco
            = rest.countP relevantDeco := by
          simp [List.countP_cons, hrel]
        have ha : (Decorator.nameDeco id :: rest).any relevantDeco
            = rest.any relevantDeco := by
          simp [List.any_cons, hrel]
        have e : decorator_pass mname doc (Decorator.nameDeco id :: rest)
            = decorator_pass mname doc rest := by
          simp [decorator_pass, hp]
        rw [e, hc, ha]
        exact ⟨ih1, ih2, ih3, ih4⟩
    | attrDeco a =>
      by_cases hs : a = "setter"
      · have hrel : relevantDeco (Decorator.attrDeco a) = true := by
          simp [relevantDeco, isPropertyDeco, isSetterDeco, hs]
        have hc : (Decorator.attrDeco a :: rest).countP relevantDeco
            = rest.countP relevantDeco + 1 := by
          simp [List.countP_cons, hrel]
        have ha : (Decorator.attrDeco a :: rest).any relevantDeco = true := by
          simp [List.any_cons, hrel]
        have e : decorator_pass mname doc (Decorator.attrDeco a :: rest)
            = ((decorator_pass mname doc rest).1,
               mname :: (decorator_pass mname doc rest).2.1, true) := by
          simp [decorator_pass, hs]
        rw [e, hc, ha]
        refine ⟨ih1, ?_, ?_, rfl⟩
        · intro x hx
          rcases List.mem_cons.mp hx with h | h
          · exact h
          · exact ih2 x h
        · simp only [List.length_cons]
          omega
      · have hrel : relevantDeco (Decorator.attrDeco a) = false := by
          simp [relevantDeco, isPropertyDeco, isSetterDeco, hs]
        have hc : (Decorator.attrDeco a :: rest).countP relevantDeco
            = rest.countP relevantDeco := by
          simp [List.countP_cons, hrel]
        have ha : (Decorator.attrDeco a :: rest).any relevantDeco
            = rest.any relevantDeco := by
          simp [List.any_cons, hrel]
        have e : decorator_pass mname doc (Decorator.attrDeco a :: rest)
            = decorator_pass mname doc rest := by
          simp [decorator_pass, hs]
        rw [e, hc, ha]
        exact ⟨ih1, ih2, ih3, ih4⟩
    | otherDeco =>
      have hrel : relevantDeco Decorator.otherDeco = false := by
        simp [relevantDeco, isPropertyDeco, isSetterDeco]
      have hc : (Decorator.otherDeco :: rest).countP relevantDeco
          = rest.countP relevantDeco := by
        simp [List.countP_cons, hrel]
      have ha : (Decorator.otherDeco :: rest).any relevantDeco
          = rest.any relevantDeco := by
        simp [List.any_cons, hrel]
      have e : decorator_pass mname doc (Decorator.otherDeco :: rest)
          = decorator_pass mname doc rest := by
        simp [decorator_pass]
      rw [e, hc, ha]
      exact ⟨ih1, ih2, ih3, ih4⟩

/-- With no relevant decorator at all, the decorator loop emits nothing and
leaves `prop` unset. -/
lemma decorator_pass_irrelevant (mname : String) (doc : Option String)
    (ds : List Decorator) (h : ∀ d ∈ ds, relevantDeco d = false) :
    decorator_pass mname doc ds = ([], [], false) := by
  obtain ⟨_, _, h3, h4⟩ := decorator_pass_spec mname doc ds
  have hc : ds.countP relevantDeco = 0 := by
    apply List.countP_eq_zero.mpr
    intro d hd
    simp [h d hd]
  have l1 : (decorator_pass mname doc ds).1 = [] := by
    rw [← List.length_eq_zero]
    omega
  have l2 : (decorator_pass mname doc ds).2.1 = [] := by
    rw [← List.length_eq_zero]
    omega
  have l3 : (decorator_pass mname doc ds).2.2 = false := by
    rw [h4]
    apply List.any_eq_false.mpr
    intro d hd
    simp [h d hd]
  have e : decorator_pass mname doc ds
      = ((decorator_pass mname doc ds).1,
         (decorator_pass mname doc ds).2.1, (decorator_pass mname doc ds).2.2) := rfl
  rw [e, l1, l2, l3]

/-- With no bare `property` decorator, the decorator loop puts nothing in
`missing`, one copy of the name in `covered` per `.setter` decorator, and
sets `prop` exactly when a `.setter` decorator occurs. -/
lemma decorator_pass_no_property (mname : String) (doc : Option String)
    (ds : List Decorator) (h : ∀ d ∈ ds, isPropertyDeco d = false) :
    decorator_pass mname doc ds
      = ([], List.replicate (ds.countP isSetterDeco) mname, ds.any isSetterDeco) := by
  induction ds with
  | nil => rfl
  | cons d rest ih =>
    have hrest := ih fun d' hd' => h d' (List.mem_cons_of_mem _ hd')
    cases d with
    | nameDeco id =>
      have hp : ¬ id = "property" := by
        have := h (Decorator.nameDeco id) (List.mem_cons_self _ _)
        simpa [isPropertyDeco] using this
      have e : decorator_pass mname doc (Decorator.nameDeco id :: rest)
          = decorator_pass mname doc rest := by
        simp [decorator_pass, hp]
      rw [e, hrest]
      simp [List.countP_cons, List.any_cons, isSetterDeco]
    | attrDeco a =>
      by_cases hs : a = "setter"
      · have e : decorator_pass mname doc (Decorator.attrDeco a :: rest)
            = ((decorator_pass mname doc rest).1,
               mname :: (decorator_pass mname doc rest).2.1, true) := by
          simp [decorator_pass, hs]
        rw [e, hrest]
        simp [List.countP_cons, List.any_cons, isSetterDeco, hs, List.replicate_succ]
      · have e : decorator_pass mname doc (Decorator.attrDeco a :: rest)
            = decorator_pass mname doc rest := by
          simp [decorator_pass, hs]
        rw [e, hrest]
        simp [List.countP_cons, List.any_cons, isSetterDeco, hs]
    | otherDeco =>
      have e : decorator_pass mname doc (Decorator.otherDeco :: rest)
          = decorator_pass mname doc rest := by
        simp [decorator_pass]
      rw [e, hrest]
      simp [List.countP_cons, List.any_cons, isSetterDeco]

/-- With exactly one bare `property` decorator and no `.setter` decorator,
the decorator loop fires exactly the getter rule. -/
lemma decorator_pass_single_property (mname : String) (doc : Option String)
    (ds : List Decorator) (h1 : ds.countP isPropertyDeco = 1)
    (h2 : ds.countP isSetterDeco = 0) :
    decorator_pass mname doc ds
      = if docContainsExample doc then ([], [mname], true) else ([mname], [], true) := by
  induction ds with
  | nil => simp at h1
  | cons d rest ih =>
    cases d with
    | nameDeco id =>
      by_cases hp : id = "property"
      · have hrp : rest.countP isPropertyDeco = 0 := by
          have : (Decorator.nameDeco id :: rest).countP isPropertyDeco
              = rest.countP isPropertyDeco + 1 := by
            simp [List.countP_cons, isPropertyDeco, hp]
          omega
        have hrs : rest.countP isSetterDeco = 0 := by
          have : (Decorator.nameDeco id :: rest).countP isSetterDeco
              = rest.countP isSetterDeco := by
            simp [List.countP_cons, isSetterDeco]
          omega
        have hirr : ∀ d ∈ rest, relevantDeco d = false := by
          intro d hd
          have hdp := List.countP_eq_zero.mp hrp d hd
          have hds := List.countP_eq_zero.mp hrs d hd
          simp only [relevantDeco, Bool.or_eq_false_iff]
          exact ⟨by simpa using hdp, by simpa using hds⟩
        have e0 := decorator_pass_irrelevant mname doc rest hirr
        by_cases hd : docContainsExample doc
        · have e : decorator_pass mname doc (Decorator.nameDeco id :: rest)
              = ((decorator_pass mname doc rest).1,
                 mname :: (decorator_pass mname doc rest).2.1, true) := by
            simp [decorator_pass, hp, hd]
          rw [e, e0]
          simp [hd]
        · have e : decorator_pass mname doc (Decorator.nameDeco id :: rest)
              = (mname :: (decorator_pass mname doc rest).1,
                 (decorator_pass mname doc rest).2.1, true) := by
            simp [decorator_pass, hp, hd]
          rw [e, e0]
          simp [hd]
      · have hrp : rest.countP isPropertyDeco = 1 := by
          have : (Decorator.nameDeco id :: rest).countP isPropertyDeco
              = rest.countP isPropertyDeco := by
            simp [List.countP_cons, isPropertyDeco, hp]
          omega
        have hrs : rest.countP isSetterDeco = 0 := by
          have : (Decorator.nameDeco id :: rest).countP isSetterDeco
              = rest.countP isSetterDeco := by
            simp [List.countP_cons, isSetterDeco]
          omega
        have e : decorator_pass mname doc (Decorator.nameDeco id :: rest)
            = decorator_pass mname doc rest := by
          simp [decorator_pass, hp]
        rw [e]
        exact ih hrp hrs
    | attrDeco a =>
      have hs : ¬ a = "setter" := by
        intro hs
        have : (Decorator.attrDeco a :: rest).countP isSetterDeco
            = rest.countP isSetterDeco + 1 := by
          simp [List.countP_cons, isSetterDeco, hs]
        omega
      have hrp : rest.countP isPropertyDeco = 1 := by
        have : (Decorator.attrDeco a :: rest).countP isPropertyDeco
            = rest.countP isPropertyDeco := by
          simp [List.countP_cons, isPropertyDeco]
        omega
      have hrs : rest.countP isSetterDeco = 0 := by
        have : (Decorator.attrDeco a :: rest).countP isSetterDeco
            = rest.countP isSetterDeco := by
          simp [List.countP_cons, isSetterDeco, hs]
        omega
      have e : decorator_pass mname doc (Decorator.attrDeco a :: rest)
          = decorator_pass mname doc rest := by
        simp [decorator_pass, hs]
      rw [e]
      exact ih hrp hrs
    | otherDeco =>
      have hrp : rest.countP isPropertyDeco = 1 := by
        have : (Decorator.otherDeco :: rest).countP isPropertyDeco
            = rest.countP isPropertyDeco := by
          simp [List.countP_cons, isPropertyDeco]
        omega
      have hrs : rest.countP isSetterDeco = 0 := by
        have : (Decorator.otherDeco :: rest).countP isSetterDeco
            = rest.countP isSetterDeco := by
          simp [List.countP_cons, isSetterDeco]
        omega
      have e : decorator_pass mname doc (Decorator.otherDeco :: rest)
          = decorator_pass mname doc rest := by
        simp [decorator_pass]
      rw [e]
      exact ih hrp hrs

/-- A private method with no relevant decorator contributes nothing. -/
lemma classify_method_private (m : FunctionDef) (h1 : strStartsWith m.name "_" = true)
    (h2 : m.decorator_list.countP relevantDeco = 0) :
    classify_method m = ([], []) := by
  have hirr : ∀ d ∈ m.decorator_list, relevantDeco d = false := by
    intro d hd
    simpa using List.countP_eq_zero.mp h2 d hd
  have e := decorator_pass_irrelevant m.name m.docstring m.decorator_list hirr
  simp [classify_method, e, h1]

/-- Every name a method contributes is its own. -/
lemma classify_method_mem (m : FunctionDef) :
    (∀ x ∈ (classify_method m).1, x = m.name) ∧ (∀ x ∈ (classify_method m).2, x = m.name) := by
  obtain ⟨h1, h2, _, _⟩ := decorator_pass_spec m.name m.docstring m.decorator_list
  cases hp : (decorator_pass m.name m.docstring m.decorator_list).2.2 with
  | true =>
    have e : classify_method m
        = ((decorator_pass m.name m.docstring m.decorator_list).1,
           (decorator_pass m.name m.docstring m.decorator_list).2.1) := by
      simp [classify_method, hp]
    rw [e]
    exact ⟨h1, h2⟩
  | false =>
    by_cases hpriv : strStartsWith m.name "_"
    · have e : classify_method m
          = ((decorator_pass m.name m.docstring m.decorator_list).1,
             (decorator_pass m.name m.docstring m.decorator_list).2.1) := by
        simp [classify_method, hp, hpriv]
      rw [e]
      exact ⟨h1, h2⟩
    · by_cases hd : docContainsExample m.docstring
      · have e : classify_method m
            = ((decorator_pass m.name m.docstring m.decorator_list).1,
               m.name :: (decorator_pass m.name m.docstring m.decorator_list).2.1) := by
          simp [classify_method, hp, hpriv, hd]
        rw [e]
        refine ⟨h1, ?_⟩
        intro x hx
        rcases List.mem_cons.mp hx with h | h
        · exact h
        · exact h2 x h
      · have e : classify_method m
            = (m.name :: (decorator_pass m.name m.docstring m.decorator_list).1,
               (decorator_pass m.name m.docstring m.decorator_list).2.1) := by
          simp [classify_method, hp, hpriv, hd]
        rw [e]
        refine ⟨?_, h2⟩
        intro x hx
        rcases List.mem_cons.mp hx with h | h
        · exact h
        · exact h1 x h

/-- A method carrying at most one relevant decorator contributes at most one
entry in total. -/
lemma classify_method_len (m : FunctionDef)
    (h : m.decorator_list.countP relevantDeco ≤ 1) :
    ((classify_method m).1 ++ (classify_method m).2).length ≤ 1 := by
  obtain ⟨_, _, h3, h4⟩ := decorator_pass_spec m.name m.docstring m.decorator_list
  cases hp : (decorator_pass m.name m.docstring m.decorator_list).2.2 with
  | true =>
    have e : classify_method m
        = ((decorator_pass m.name m.docstring m.decorator_list).1,
           (decorator_pass m.name m.docstring m.decorator_list).2.1) := by
      simp [classify_method, hp]
    rw [e]
    simp only [List.length_append]
    omega
  | false =>
    have hany : m.decorator_list.any relevantDeco = false := by rw [← h4]; exact hp
    have hc0 : m.decorator_list.countP relevantDeco = 0 := by
      apply List.countP_eq_zero.mpr
      intro d hd
      simpa using List.any_eq_false.mp hany d hd
    have l1 : (decorator_pass m.name m.docstring m.decorator_list).1 = [] := by
      rw [← List.length_eq_zero]
      omega
    have l2 : (decorator_pass m.name m.docstring m.decorator_list).2.1 = [] := by
      rw [← List.length_eq_zero]
      omega
    by_cases hpriv : strStartsWith m.name "_"
    · have e : classify_method m = ([], []) := by
        simp [classify_method, hp, hpriv, l1, l2]
      simp [e]
    · by_cases hd : docContainsExample m.docstring
      · have e : classify_method m = ([], [m.name]) := by
          simp [classify_method, hp, hpriv, hd, l1, l2]
        simp [e]
      · have e : classify_method m = ([m.name], []) := by
          simp [classify_method, hp, hpriv, hd, l1, l2]
        simp [e]

/-- Count form of the two previous lemmas. -/
lemma classify_method_count (m : FunctionDef)
    (h : m.decorator_list.countP relevantDeco ≤ 1) (n : String) :
    ((classify_method m).1 ++ (classify_method m).2).count n ≤ List.count n [m.name] := by
  by_cases hn : n = m.name
  · subst hn
    have hl := classify_method_len m h
    calc ((classify_method m).1 ++ (classify_method m).2).count m.name
        ≤ ((classify_method m).1 ++ (classify_method m).2).length :=
          List.count_le_length _ _
      _ ≤ 1 := hl
      _ = List.count m.name [m.name] := by simp
  · have hmem : n ∉ (classify_method m).1 ++ (classify_method m).2 := by
      intro hmem
      rcases List.mem_append.mp hmem with h' | h'
      · exact hn ((classify_method_mem m).1 n h')
      · exact hn ((classify_method_mem m).2 n h')
    rw [List.count_eq_zero.mpr hmem]
    omega

/-- `.setter` with no bare `property`: the method lands in covered (once per
setter decorator) and not in missing, whatever its name and docstring. -/
lemma classify_method_setter (m : FunctionDef)
    (h1 : 0 < m.decorator_list.countP isSetterDeco)
    (h2 : m.decorator_list.countP isPropertyDeco = 0) :
    classify_method m = ([], List.replicate (m.decorator_list.countP isSetterDeco) m.name) := by
  have hnp : ∀ d ∈ m.decorator_list, isPropertyDeco d = false := by
    intro d hd
    simpa using List.countP_eq_zero.mp h2 d hd
  have e := decorator_pass_no_property m.name m.docstring m.decorator_list hnp
  have hany : m.decorator_list.any isSetterDeco = true := by
    apply List.any_eq_true.mpr
    exact List.countP_pos_iff.mp h1
  simp [classify_method, e, hany]

/-- One bare `property` and no `.setter`: the getter rule decides, whatever
the method's name. -/
lemma classify_method_property (m : FunctionDef)
    (h1 : m.decorator_list.countP isPropertyDeco = 1)
    (h2 : m.decorator_list.countP isSetterDeco = 0) :
    classify_method m
      = if docContainsExample m.docstring then ([], [m.name]) else ([m.name], []) := by
  have e := decorator_pass_single_property m.name m.docstring m.decorator_list h1 h2
  by_cases hd : docContainsExample m.docstring
  · simp [classify_method, e, hd]
  · simp [classify_method, e, hd]

lemma classify_methods_cons (m : FunctionDef) (rest : List FunctionDef) :
    classify_methods (m :: rest)
      = ((classify_method m).1 ++ (classify_methods rest).1,
         (classify_method m).2 ++ (classify_methods rest).2) := rfl

/-- Splitting a head off a count. -/
lemma count_cons_split (n a : String) (l : List String) :
    List.count n (a :: l) = List.count n [a] + List.count n l := by
  rw [← List.singleton_append, List.count_append]

/-- Each non-private function contributes at most one occurrence of each
name; private functions contribute nothing at all, so the bound is over the
non-private names only. -/
lemma classify_functions_count (fns : List FunctionDef) (n : String) :
    ((classify_functions fns).1 ++ (classify_functions fns).2).count n
      ≤ ((fns.filter fun f => !strStartsWith f.name "_").map fun f => f.name).count n := by
  induction fns with
  | nil => simp [classify_functions]
  | cons f rest ih =>
    simp only [List.count_append] at ih
    by_cases h1 : strStartsWith f.name "_"
    · have e : classify_functions (f :: rest) = classify_functions rest := by
        simp [classify_functions, h1]
      have efil : (f :: rest).filter (fun f => !strStartsWith f.name "_")
          = rest.filter fun f => !strStartsWith f.name "_" := by
        simp [List.filter_cons, h1]
      rw [e, efil]
      simp only [List.count_append]
      omega
    · have efil : (f :: rest).filter (fun f => !strStartsWith f.name "_")
          = f :: rest.filter fun f => !strStartsWith f.name "_" := by
        simp [List.filter_cons, h1]
      by_cases h2 : docContainsExample f.docstring
      · have e : classify_functions (f :: rest)
            = ((classify_functions rest).1, f.name :: (classify_functions rest).2) := by
          simp [classify_functions, h1, h2]
        rw [e]
        dsimp only
        rw [efil, List.map_cons,
          count_cons_split n f.name
            (List.map (fun f => f.name) (rest.filter fun f => !strStartsWith f.name "_")),
          List.count_append,
          count_cons_split n f.name (classify_functions rest).2]
        omega
      · have e : classify_functions (f :: rest)
            = (f.name :: (classify_functions rest).1, (classify_functions rest).2) := by
          simp [classify_functions, h1, h2]
        rw [e]
        dsimp only
        rw [efil, List.map_cons,
          count_cons_split n f.name
            (List.map (fun f => f.name) (rest.filter fun f => !strStartsWith f.name "_")),
          List.count_append,
          count_cons_split n f.name (classify_functions rest).1]
        omega

/-- Each class contributes exactly one occurrence of its name; count bound. -/
lemma classify_classes_count (cls : List (String × Option String × List Stmt)) (n : String) :
    ((classify_classes cls).1 ++ (classify_classes cls).2).count n
      ≤ (cls.map fun c => c.1).count n := by
  induction cls with
  | nil => simp [classify_classes]
  | cons c rest ih =>
    simp only [List.count_append] at ih
    by_cases h : docContainsExample c.2.1
    · have e : classify_classes (c :: rest)
          = ((classify_classes rest).1, c.1 :: (classify_classes rest).2) := by
        simp [classify_classes, h]
      rw [e]
      dsimp only
      rw [List.map_cons,
        count_cons_split n c.1 (List.map (fun c => c.1) rest),
        List.count_append,
        count_cons_split n c.1 (classify_classes rest).2]
      omega
    · have e : classify_classes (c :: rest)
          = (c.1 :: (classify_classes rest).1, (classify_classes rest).2) := by
        simp [classify_classes, h]
      rw [e]
      dsimp only
      rw [List.map_cons,
        count_cons_split n c.1 (List.map (fun c => c.1) rest),
        List.count_append,
        count_cons_split n c.1 (classify_classes rest).1]
      omega

/-- When every method carries at most one relevant decorator, the method
pass contributes each name at most as often as it occurs among the method
names. -/
lemma classify_methods_count (ms : List FunctionDef)
    (h : ∀ m ∈ ms, m.decorator_list.countP relevantDeco ≤ 1) (n : String) :
    ((classify_methods ms).1 ++ (classify_methods ms).2).count n
      ≤ (ms.map fun m => m.name).count n := by
  induction ms with
  | nil => simp [classify_methods]
  | cons m rest ih =>
    have hm := classify_method_count m (h m (List.mem_cons_self _ _)) n
    have hrest := ih fun m' hm' => h m' (List.mem_cons_of_mem _ hm')
    rw [classify_methods_cons, List.map_cons, ← List.singleton_append]
    simp only [List.count_append] at hm hrest ⊢
    omega

/-- The function pass never emits a name that starts with the privacy
marker. -/
lemma classify_functions_no_private (fns : List FunctionDef) (n : String)
    (hn : strStartsWith n "_" = true) :
    n ∉ (classify_functions fns).1 ∧ n ∉ (classify_functions fns).2 := by
  rw [classify_functions_spec]
  constructor
  · intro hmem
    obtain ⟨f, hf, hname⟩ := List.mem_map.mp hmem
    have := (List.mem_filter.mp hf).2
    rw [Bool.and_eq_true] at this
    have hpriv : strStartsWith f.name "_" = false := by
      simpa using this.1
    rw [hname] at hpriv
    rw [hn] at hpriv
    exact Bool.true_eq_false.mp hpriv
  · intro hmem
    obtain ⟨f, hf, hname⟩ := List.mem_map.mp hmem
    have := (List.mem_filter.mp hf).2
    rw [Bool.and_eq_true] at this
    have hpriv : strStartsWith f.name "_" = false := by
      simpa using this.1
    rw [hname] at hpriv
    rw [hn] at hpriv
    exact Bool.true_eq_false.mp hpriv

/-- The method pass never emits a private name, provided no private method
carries a relevant decorator. -/
lemma classify_methods_no_private (ms : List FunctionDef) (n : String)
    (hn : strStartsWith n "_" = true)
    (h : ∀ m ∈ ms, strStartsWith m.name "_" = true →
      m.decorator_list.countP relevantDeco = 0) :
    n ∉ (classify_methods ms).1 ∧ n ∉ (classify_methods ms).2 := by
  induction ms with
  | nil => simp [classify_methods]
  | cons m rest ih =>
    have hrest := ih fun m' hm' => h m' (List.mem_cons_of_mem _ hm')
    have hhead : n ∉ (classify_method m).1 ∧ n ∉ (classify_method m).2 := by
      by_cases hm : strStartsWith m.name "_"
      · have e := classify_method_private m hm (h m (List.mem_cons_self _ _) hm)
        simp [e]
      · constructor
        · intro hmem
          have := (classify_method_mem m).1 n hmem
          rw [this] at hn
          exact hm hn
        · intro hmem
          have := (classify_method_mem m).2 n hmem
          rw [this] at hn
          exact hm hn
    rw [classify_methods_cons]
    constructor
    · intro hmem
      rcases List.mem_append.mp hmem with h' | h'
      · exact hhead.1 h'
      · exact hrest.1 h'
    · intro hmem
      rcases List.mem_append.mp hmem with h' | h'
      · exact hhead.2 h'
      · exact hrest.2 h'

/-! ### Lemmas about the module body and class bodies -/

/-- The class pass only looks at names and docstrings. -/
lemma classify_classes_eq_of_proj (l l' : List (String × Option String × List Stmt))
    (h : l.map (fun c => (c.1, c.2.1)) = l'.map (fun c => (c.1, c.2.1))) :
    classify_classes l = classify_classes l' := by
  rw [classify_classes_spec, classify_classes_spec, h]

lemma function_definitions_append (xs ys : List Stmt) :
    function_definitions (xs ++ ys) = function_definitions xs ++ function_definitions ys :=
  List.filterMap_append xs ys _

lemma class_definitions_append (xs ys : List Stmt) :
    class_definitions (xs ++ ys) = class_definitions xs ++ class_definitions ys :=
  List.filterMap_append xs ys _

lemma method_definitions_append (xs ys : List (String × Option String × List Stmt)) :
    method_definitions (xs ++ ys) = method_definitions xs ++ method_definitions ys :=
  List.flatMap_append xs ys _

/-! ### Lemmas about the directory model -/

/-- Everything `rglob('*.py')` yields is a path ending in `.py`. -/
lemma rglobPy_mem_py : ∀ (pre : String) (es : List FSEntry),
    ∀ p ∈ rglobPy pre es, strEndsWith p ".py" = true := by
  have main : ∀ (pre : String) (es : List FSEntry),
      ∀ p ∈ rglobPy pre es, strEndsWith p ".py" = true := by
    apply rglobPy.induct
      (motive_1 := fun pre e => ∀ p ∈ rglobPyEntry pre e, strEndsWith p ".py" = true)
      (motive_2 := fun pre es => ∀ p ∈ rglobPy pre es, strEndsWith p ".py" = true)
    · intro pre n h p hp
      rw [rglobPyEntry, if_pos h] at hp
      rcases List.mem_singleton.mp hp with rfl
      exact strEndsWith_append pre n ".py" h
    · intro pre n h p hp
      rw [rglobPyEntry, if_neg h] at hp
      simp at hp
    · intro pre n sub ih p hp
      rw [rglobPyEntry] at hp
      rcases List.mem_append.mp hp with h' | h'
      · by_cases hn : strEndsWith n ".py" = true
        · rw [if_pos hn] at h'
          rcases List.mem_singleton.mp h' with rfl
          exact strEndsWith_append pre n ".py" hn
        · rw [if_neg hn] at h'
          simp at h'
      · exact ih p h'
    · intro pre p hp
      simp [rglobPy] at hp
    · intro pre e rest ih1 ih2 p hp
      rw [rglobPy] at hp
      rcases List.mem_append.mp hp with h' | h'
      · exact ih1 p h'
      · exact ih2 p h'
  exact main

/-- Every file whose name ends in `.py` is collected by `rglob('*.py')`. -/
lemma pyFilePaths_sub_rglobPy : ∀ (pre : String) (es : List FSEntry),
    ∀ p ∈ pyFilePaths pre es, p ∈ rglobPy pre es := by
  apply pyFilePaths.induct
    (motive_1 := fun pre e => ∀ p ∈ pyFilePathsEntry pre e, p ∈ rglobPyEntry pre e)
    (motive_2 := fun pre es => ∀ p ∈ pyFilePaths pre es, p ∈ rglobPy pre es)
  · intro pre n h p hp
    rw [pyFilePathsEntry, if_pos h] at hp
    rw [rglobPyEntry, if_pos h]
    exact hp
  · intro pre n h p hp
    rw [pyFilePathsEntry, if_neg h] at hp
    simp at hp
  · intro pre n sub ih p hp
    rw [pyFilePathsEntry] at hp
    rw [rglobPyEntry]
    exact List.mem_append_right _ (ih p hp)
  · intro pre p hp
    simp [pyFilePaths] at hp
  · intro pre e rest ih1 ih2 p hp
    rw [pyFilePaths] at hp
    rw [rglobPy]
    rcases List.mem_append.mp hp with h' | h'
    · exact List.mem_append_left _ (ih1 p h')
    · exact List.mem_append_right _ (ih2 p h')

/-- Membership in the non-recursive candidate list: exactly the direct file
entries with pathlib suffix `.py` whose name does not end in
`"__init__.py"`, joined to the directory path. -/
lemma candidate_modules_false_mem (dp : String) (root : List FSEntry) (p : String) :
    p ∈ candidate_modules dp root false
      ↔ ∃ n, FSEntry.file n ∈ root ∧ pySuffix n = true ∧
          strEndsWith n "__init__.py" = false ∧ p = dp ++ "/" ++ n := by
  have e : candidate_modules dp root false
      = root.filterMap fun e =>
          match e with
          | FSEntry.file n =>
            if pySuffix n && !(strEndsWith n "__init__.py") then some (dp ++ "/" ++ n)
            else none
          | FSEntry.dir _ _ => none := rfl
  rw [e, List.mem_filterMap]
  constructor
  · rintro ⟨en, he, hfe⟩
    cases en with
    | file n =>
      dsimp only at hfe
      cases hc : pySuffix n && !(strEndsWith n "__init__.py") with
      | true =>
        rw [if_pos hc] at hfe
        have hp : p = dp ++ "/" ++ n := ((Option.some.injEq _ _).mp hfe).symm
        simp only [Bool.and_eq_true, Bool.not_eq_true'] at hc
        obtain ⟨h1, h2⟩ := hc
        exact ⟨n, he, h1, h2, hp⟩
      | false =>
        rw [if_neg (by simp [hc])] at hfe
        simp at hfe
    | dir n sub =>
      dsimp only at hfe
      simp at hfe
  · rintro ⟨n, hn, h1, h2, rfl⟩
    refine ⟨FSEntry.file n, hn, ?_⟩
    dsimp only
    rw [if_pos (by rw [h1, h2]; rfl)]

/-- Inverting a successful `find_files` run. -/
lemma find_files_ok (dp : String) (root : List FSEntry) (recursive : Bool)
    (ms : List String) (h : find_files dp root recursive = Except.ok ms) :
    ms = List.insertionSort strLeP (candidate_modules dp root recursive) := by
  unfold find_files at h
  by_cases h1 : (listdir root).isEmpty
  · rw [if_pos h1] at h
    exact absurd h (by simp)
  · rw [if_neg h1] at h
    by_cases h2 : (candidate_modules dp root recursive).isEmpty
    · rw [if_pos h2] at h
      exact absurd h (by simp)
    · rw [if_neg h2] at h
      exact ((Except.ok.injEq _ _).mp h).symm

/-! ### Arithmetic of the reported percentage -/

lemma percentage_covered_eq (t m : Nat) :
    percentage_covered t m
      = if 0 < t then 100 * ((t - m : Nat) : ℚ) / (t : ℚ) else 100 := by
  unfold percentage_covered
  by_cases ht : t = 0
  · simp [ht]
  · have hpos : 0 < t := Nat.pos_of_ne_zero ht
    rw [if_pos (by exact ht), if_pos hpos]
    ring

/-- Unfolding `classify_module` to its three concatenated passes. -/
lemma classify_module_def (body : List Stmt) :
    classify_module body
      = ((classify_functions (function_definitions body)).1
          ++ (classify_classes (class_definitions body)).1
          ++ (classify_methods (method_definitions (class_definitions body))).1,
         (classify_functions (function_definitions body)).2
          ++ (classify_classes (class_definitions body)).2
          ++ (classify_methods (method_definitions (class_definitions body))).2) := rfl

/-! ### The claims -/

/-- C1 counterexample: a method carrying both a bare `property` decorator and
a `.setter` decorator is placed in the missing set (by the property rule,
which sees no docstring) and also in the covered set (by the setter rule), so
the same name appears in both result sets of its module. -/
theorem covered_missing_overlap_cex :
    "m" ∈ (classify_module [Stmt.classDef "C" (some "An Example")
        [Stmt.functionDef ⟨"m", none,
          [Decorator.nameDeco "property", Decorator.attrDeco "setter"]⟩]]).1 ∧
    "m" ∈ (classify_module [Stmt.classDef "C" (some "An Example")
        [Stmt.functionDef ⟨"m", none,
          [Decorator.nameDeco "property", Decorator.attrDeco "setter"]⟩]]).2 := by
  constructor
  · decide
  · decide

/-- C1 (amended): provided every method carries at most one decorator that is
a bare `property` name or a `.setter` attribute, and the names of the
non-private top-level functions, the classes and the methods are pairwise
distinct, each declaration name appears in at most one of the two result
sets and at most once. -/
theorem classification_nodup (body : List Stmt)
    (h1 : ∀ m ∈ method_definitions (class_definitions body),
      m.decorator_list.countP relevantDeco ≤ 1)
    (h2 : ((((function_definitions body).filter fun f => !strStartsWith f.name "_").map
          fun f => f.name)
        ++ (class_definitions body).map (fun c => c.1)
        ++ (method_definitions (class_definitions body)).map (fun m => m.name)).Nodup) :
    ((classify_module body).1 ++ (classify_module body).2).Nodup := by
  rw [List.nodup_iff_count_le_one] at h2 ⊢
  intro a
  have hf := classify_functions_count (function_definitions body) a
  have hc := classify_classes_count (class_definitions body) a
  have hm := classify_methods_count (method_definitions (class_definitions body)) h1 a
  have h2a := h2 a
  rw [classify_module_def]
  dsimp only
  simp only [List.count_append] at hf hc hm h2a ⊢
  omega

/-- C1 witness. -/
theorem classification_nodup_witness :
    (∀ m ∈ method_definitions (class_definitions
        [Stmt.functionDef ⟨"f", some "An Example", []⟩,
         Stmt.classDef "C" none
           [Stmt.functionDef ⟨"g", none, [Decorator.nameDeco "property"]⟩]]),
      m.decorator_list.countP relevantDeco ≤ 1) ∧
    (((((function_definitions
        [Stmt.functionDef ⟨"f", some "An Example", []⟩,
         Stmt.classDef "C" none
           [Stmt.functionDef ⟨"g", none, [Decorator.nameDeco "property"]⟩]]).filter
          fun f => !strStartsWith f.name "_").map
          fun f => f.name)
        ++ (class_definitions
        [Stmt.functionDef ⟨"f", some "An Example", []⟩,
         Stmt.classDef "C" none
           [Stmt.functionDef ⟨"g", none, [Decorator.nameDeco "property"]⟩]]).map
          (fun c => c.1)
        ++ (method_definitions (class_definitions
        [Stmt.functionDef ⟨"f", some "An Example", []⟩,
         Stmt.classDef "C" none
           [Stmt.functionDef ⟨"g", none, [Decorator.nameDeco "property"]⟩]])).map
          (fun m => m.name)).Nodup) ∧
    ((classify_module
        [Stmt.functionDef ⟨"f", some "An Example", []⟩,
         Stmt.classDef "C" none
           [Stmt.functionDef ⟨"g", none, [Decorator.nameDeco "property"]⟩]]).1
      ++ (classify_module
        [Stmt.functionDef ⟨"f", some "An Example", []⟩,
         Stmt.classDef "C" none
           [Stmt.functionDef ⟨"g", none, [Decorator.nameDeco "property"]⟩]]).2).Nodup :=
  ⟨by decide, by decide, classification_nodup _ (by decide) (by decide)⟩

/-- C2 counterexample: a private-named method that carries a bare `property`
decorator is classified (it lands in the missing set), because the decorator
loop runs before the private-name check. -/
theorem private_method_classified_cex :
    "_x" ∈ (classify_module [Stmt.classDef "K" (some "Example use")
        [Stmt.functionDef ⟨"_x", none, [Decorator.nameDeco "property"]⟩]]).1 := by
  decide

/-- C2 (amended): a name starting with the underscore marker is never emitted
by the function pass; it is never emitted by the method pass provided no
private-named method carries a bare `property` or `.setter` decorator. -/
theorem private_names_unclassified (fns ms : List FunctionDef) (n : String)
    (hn : strStartsWith n "_" = true)
    (h : ∀ m ∈ ms, strStartsWith m.name "_" = true →
      m.decorator_list.countP relevantDeco = 0) :
    (n ∉ (classify_functions fns).1 ∧ n ∉ (classify_functions fns).2) ∧
    (n ∉ (classify_methods ms).1 ∧ n ∉ (classify_methods ms).2) :=
  ⟨classify_functions_no_private fns n hn, classify_methods_no_private ms n hn h⟩

/-- C2 witness. -/
theorem private_names_unclassified_witness :
    strStartsWith "_q" "_" = true ∧
    (∀ m ∈ [(⟨"_m", none, []⟩ : FunctionDef)],
      strStartsWith m.name "_" = true → m.decorator_list.countP relevantDeco = 0) ∧
    (("_q" ∉ (classify_functions [⟨"pub", some "Example ok", []⟩]).1 ∧
      "_q" ∉ (classify_functions [⟨"pub", some "Example ok", []⟩]).2) ∧
     ("_q" ∉ (classify_methods [⟨"_m", none, []⟩]).1 ∧
      "_q" ∉ (classify_methods [⟨"_m", none, []⟩]).2)) :=
  ⟨by decide, by decide,
    private_names_unclassified [⟨"pub", some "Example ok", []⟩] [⟨"_m", none, []⟩]
      "_q" (by decide) (by decide)⟩

/-- C3 counterexample: a method with a `.setter` decorator followed by a bare
`property` decorator is put in the covered set by the setter rule, but rule
evaluation does not stop: the property rule also fires and puts the same
method in the missing set. -/
theorem setter_combo_cex :
    classify_method ⟨"s", none, [Decorator.attrDeco "setter", Decorator.nameDeco "property"]⟩
      = (["s"], ["s"]) := by
  decide

/-- C3 (amended): a method carrying at least one `.setter` attribute
decorator and no bare `property` decorator is always classified covered
(once per setter decorator), never missing, regardless of its docstring and
name; no other rule contributes. -/
theorem setter_always_covered (m : FunctionDef)
    (h1 : 0 < m.decorator_list.countP isSetterDeco)
    (h2 : m.decorator_list.countP isPropertyDeco = 0) :
    classify_method m
      = ([], List.replicate (m.decorator_list.countP isSetterDeco) m.name) :=
  classify_method_setter m h1 h2

/-- C3 witness. -/
theorem setter_always_covered_witness :
    0 < ([Decorator.attrDeco "setter"] : List Decorator).countP isSetterDeco ∧
    ([Decorator.attrDeco "setter"] : List Decorator).countP isPropertyDeco = 0 ∧
    classify_method ⟨"val", none, [Decorator.attrDeco "setter"]⟩
      = ([], List.replicate
          (([Decorator.attrDeco "setter"] : List Decorator).countP isSetterDeco) "val") :=
  ⟨by decide, by decide,
    setter_always_covered ⟨"val", none, [Decorator.attrDeco "setter"]⟩ (by decide) (by decide)⟩

/-- C4 counterexample: a method with a bare `property` decorator (and also a
`.setter` decorator) and no docstring lands in the covered set, although its
docstring contains no "Example"; the property outcome did not terminate rule
evaluation. -/
theorem property_combo_cex :
    classify_method ⟨"p", none, [Decorator.nameDeco "property", Decorator.attrDeco "setter"]⟩
      = (["p"], ["p"]) := by
  decide

/-- C4 (amended): a method carrying exactly one bare `property` decorator and
no `.setter` decorator is covered iff its docstring contains "Example" and
otherwise missing, exactly once; neither the private-name exemption nor the
default rule contributes. -/
theorem property_getter_rule (m : FunctionDef)
    (h1 : m.decorator_list.countP isPropertyDeco = 1)
    (h2 : m.decorator_list.countP isSetterDeco = 0) :
    classify_method m
      = if docContainsExample m.docstring then ([], [m.name]) else ([m.name], []) :=
  classify_method_property m h1 h2

/-- C4 witness. -/
theorem property_getter_rule_witness :
    ([Decorator.nameDeco "property"] : List Decorator).countP isPropertyDeco = 1 ∧
    ([Decorator.nameDeco "property"] : List Decorator).countP isSetterDeco = 0 ∧
    classify_method ⟨"getter", some "with Example text", [Decorator.nameDeco "property"]⟩
      = (if docContainsExample (some "with Example text")
          then ([], ["getter"]) else (["getter"], [])) :=
  ⟨by decide, by decide,
    property_getter_rule ⟨"getter", some "with Example text", [Decorator.nameDeco "property"]⟩
      (by decide) (by decide)⟩

/-- C5: a non-private top-level function is covered iff its docstring exists
and contains "Example", otherwise missing (private ones are dropped), and a
class is classified by exactly the same docstring test applied to its own
name and docstring only, so its classification is independent of its
methods. -/
theorem toplevel_classification_rule (fns : List FunctionDef)
    (cls : List (String × Option String × List Stmt)) :
    classify_functions fns =
      ((fns.filter fun f => !strStartsWith f.name "_" && !docContainsExample f.docstring).map
          (fun f => f.name),
       (fns.filter fun f => !strStartsWith f.name "_" && docContainsExample f.docstring).map
          (fun f => f.name)) ∧
    classify_classes cls =
      (((cls.map fun c => (c.1, c.2.1)).filter fun p => !docContainsExample p.2).map
          (fun p => p.1),
       ((cls.map fun c => (c.1, c.2.1)).filter fun p => docContainsExample p.2).map
          (fun p => p.1)) :=
  ⟨classify_functions_spec fns, classify_classes_spec cls⟩

/-- C6: `find_files` fails exactly when the directory listing is empty or the
filtered candidate list is empty; otherwise it returns a non-empty list. -/
theorem find_files_failure_iff (dp : String) (root : List FSEntry) (recursive : Bool) :
    match find_files dp root recursive with
    | Except.error _ =>
        (listdir root).isEmpty = true ∨ (candidate_modules dp root recursive).isEmpty = true
    | Except.ok ms =>
        (listdir root).isEmpty = false ∧ (candidate_modules dp root recursive).isEmpty = false
          ∧ ms.isEmpty = false := by
  cases h1 : (listdir root).isEmpty with
  | true => simp [find_files, h1]
  | false =>
    cases h2 : (candidate_modules dp root recursive).isEmpty with
    | true => simp [find_files, h1, h2]
    | false =>
      have hne : candidate_modules dp root recursive ≠ [] := by
        intro he
        rw [he] at h2
        simp at h2
      have hsne : List.insertionSort strLeP (candidate_modules dp root recursive) ≠ [] := by
        intro he
        have hl := List.length_insertionSort strLeP (candidate_modules dp root recursive)
        rw [he] at hl
        exact hne (List.length_eq_zero.mp hl.symm)
      have hlen : (List.insertionSort strLeP (candidate_modules dp root recursive)).isEmpty
          = false := by
        cases hh : (List.insertionSort strLeP (candidate_modules dp root recursive)).isEmpty
        · rfl
        · exact absurd (List.isEmpty_iff.mp hh) hsne
      simp [find_files, h1, h2, hlen]

/-- C7 counterexample: a file named `b__init__.py` ends in `.py` and is not
the package initializer, yet `find_files` drops it (endswith-based
exclusion) and consequently reports that no module was found. -/
theorem find_files_endswith_cex :
    find_files "d" [FSEntry.file "b__init__.py"] true
      = Except.error "No python modules found in: d." := rfl

/-- C7 (amended): a successful `find_files` run returns, in recursive mode,
exactly the `rglob('*.py')` matches whose full path does not end with
`"__init__.py"` (every file whose own name ends in `.py` and survives that
filter is returned); in non-recursive mode, exactly the direct file entries
with pathlib suffix `.py` (name ends in `.py` and is not exactly `.py`)
whose name does not end with `"__init__.py"`.  So the exclusion drops every
candidate ending in `__init__.py`, not only the exact package initializer,
and everything returned ends in `.py`. -/
theorem find_files_contents (dp : String) (root : List FSEntry) (recursive : Bool)
    (ms : List String) (h : find_files dp root recursive = Except.ok ms) :
    match recursive with
    | true =>
      (∀ p, p ∈ ms ↔ (p ∈ rglobPy (dp ++ "/") root ∧ strEndsWith p "__init__.py" = false)) ∧
      (∀ p, p ∈ pyFilePaths (dp ++ "/") root → strEndsWith p "__init__.py" = false → p ∈ ms) ∧
      (∀ p, p ∈ ms → strEndsWith p ".py" = true)
    | false =>
      (∀ p, p ∈ ms ↔ ∃ n, FSEntry.file n ∈ root ∧ pySuffix n = true ∧
          strEndsWith n "__init__.py" = false ∧ p = dp ++ "/" ++ n) ∧
      (∀ p, p ∈ ms → strEndsWith p ".py" = true) := by
  have hms := find_files_ok dp root recursive ms h
  have hperm : List.Perm ms (candidate_modules dp root recursive) := by
    rw [hms]
    exact List.perm_insertionSort strLeP _
  cases recursive with
  | true =>
    have hcand : candidate_modules dp root true
        = (rglobPy (dp ++ "/") root).filter fun p => !(strEndsWith p "__init__.py") := rfl
    have hmem : ∀ p, p ∈ ms
        ↔ (p ∈ rglobPy (dp ++ "/") root ∧ strEndsWith p "__init__.py" = false) := by
      intro p
      rw [hperm.mem_iff, hcand, List.mem_filter, Bool.not_eq_true']
    refine ⟨hmem, ?_, ?_⟩
    · intro p hp hni
      exact (hmem p).mpr ⟨pyFilePaths_sub_rglobPy _ _ p hp, hni⟩
    · intro p hp
      exact rglobPy_mem_py _ _ p ((hmem p).mp hp).1
  | false =>
    have hmem : ∀ p, p ∈ ms
        ↔ ∃ n, FSEntry.file n ∈ root ∧ pySuffix n = true ∧
            strEndsWith n "__init__.py" = false ∧ p = dp ++ "/" ++ n := by
      intro p
      rw [hperm.mem_iff]
      exact candidate_modules_false_mem dp root p
    refine ⟨hmem, ?_⟩
    intro p hp
    obtain ⟨n, _, h1, _, rfl⟩ := (hmem p).mp hp
    have hpy : strEndsWith n ".py" = true := by
      unfold pySuffix at h1
      simp only [Bool.and_eq_true] at h1
      exact h1.1
    exact strEndsWith_append (dp ++ "/") n ".py" hpy

/-- C7 witness (non-recursive mode; a file named exactly `.py` and a file in
a subdirectory are both absent, `a.py` is returned). -/
theorem find_files_contents_witness :
    find_files "d" [FSEntry.file "a.py", FSEntry.file ".py",
        FSEntry.dir "sub" [FSEntry.file "c.py"]] false
      = Except.ok ["d/a.py"] ∧
    "d/a.py" ∈ ["d/a.py"] :=
  ⟨rfl,
    ((find_files_contents "d"
        [FSEntry.file "a.py", FSEntry.file ".py", FSEntry.dir "sub" [FSEntry.file "c.py"]]
        false ["d/a.py"] rfl).1 "d/a.py").mpr
      ⟨"a.py", List.mem_cons_self _ _, by decide, by decide, rfl⟩⟩

/-- C8: a successful `find_files` run is sorted ascending in the
lexicographic (code-point) order on full paths. -/
theorem find_files_sorted (dp : String) (root : List FSEntry) (recursive : Bool)
    (ms : List String) (h : find_files dp root recursive = Except.ok ms) :
    List.Sorted strLeP ms := by
  rw [find_files_ok dp root recursive ms h]
  exact List.sorted_insertionSort strLeP _

/-- C8 witness. -/
theorem find_files_sorted_witness : List.Sorted strLeP ["d/a.py", "d/b.py"] :=
  find_files_sorted "d" [FSEntry.file "b.py", FSEntry.file "a.py"] false
    ["d/a.py", "d/b.py"] rfl

/-- C9: the reported module percentage is `100 * covered / total` when the
total is positive and `100` when the total is zero (a module with no
qualifying declaration reports 100%), and the package-wide percentage obeys
the same formula over the concatenated lists. -/
theorem percentage_formula (body : List Stmt) (mods : List (List Stmt)) :
    percentage_covered (module_counts body).1 (module_counts body).2
      = (if 0 < (module_counts body).1
          then 100 * ((classify_module body).2.length : ℚ) / ((module_counts body).1 : ℚ)
          else 100) ∧
    percentage_covered (package_counts mods).1 (package_counts mods).2
      = (if 0 < (package_counts mods).1
          then 100 * (((mods.map fun b => (classify_module b).2).flatten.length : ℚ))
              / ((package_counts mods).1 : ℚ)
          else 100) := by
  constructor
  · rw [percentage_covered_eq]
    have hsub : (module_counts body).1 - (module_counts body).2
        = (classify_module body).2.length := by
      have e1 : (module_counts body).1
          = (classify_module body).1.length + (classify_module body).2.length := rfl
      have e2 : (module_counts body).2 = (classify_module body).1.length := rfl
      omega
    rw [hsub]
  · rw [percentage_covered_eq]
    have hsub : (package_counts mods).1 - (package_counts mods).2
        = (mods.map fun b => (classify_module b).2).flatten.length := by
      have e1 : (package_counts mods).1
          = (mods.map fun b => (classify_module b).2).flatten.length
            + (mods.map fun b => (classify_module b).1).flatten.length := rfl
      have e2 : (package_counts mods).2
          = (mods.map fun b => (classify_module b).1).flatten.length := rfl
      omega
    rw [hsub]

/-- C10: an `ast.AsyncFunctionDef` node is invisible to the classifier:
inserting one anywhere at module top level, or anywhere inside a class body,
leaves the classification result unchanged, whatever its name, docstring and
decorators. -/
theorem async_defs_ignored (xs ys : List Stmt) (f : FunctionDef) (cn : String)
    (cd : Option String) (bs cs : List Stmt) :
    classify_module (xs ++ Stmt.asyncFunctionDef f :: ys) = classify_module (xs ++ ys) ∧
    classify_module (xs ++ Stmt.classDef cn cd (bs ++ Stmt.asyncFunctionDef f :: cs) :: ys)
      = classify_module (xs ++ Stmt.classDef cn cd (bs ++ cs) :: ys) := by
  constructor
  · have hf : function_definitions (xs ++ Stmt.asyncFunctionDef f :: ys)
        = function_definitions (xs ++ ys) := by
      simp [function_definitions, List.filterMap_append, List.filterMap_cons]
    have hc : class_definitions (xs ++ Stmt.asyncFunctionDef f :: ys)
        = class_definitions (xs ++ ys) := by
      simp [class_definitions, List.filterMap_append, List.filterMap_cons]
    rw [classify_module_def, classify_module_def, hf, hc]
  · have hf : function_definitions
        (xs ++ Stmt.classDef cn cd (bs ++ Stmt.asyncFunctionDef f :: cs) :: ys)
        = function_definitions (xs ++ Stmt.classDef cn cd (bs ++ cs) :: ys) := by
      simp [function_definitions, List.filterMap_append, List.filterMap_cons]
    have hfb : function_definitions (bs ++ Stmt.asyncFunctionDef f :: cs)
        = function_definitions (bs ++ cs) := by
      simp [function_definitions, List.filterMap_append, List.filterMap_cons]
    have hcd1 : class_definitions
        (xs ++ Stmt.classDef cn cd (bs ++ Stmt.asyncFunctionDef f :: cs) :: ys)
        = class_definitions xs
          ++ (cn, cd, bs ++ Stmt.asyncFunctionDef f :: cs) :: class_definitions ys := by
      simp [class_definitions, List.filterMap_append, List.filterMap_cons]
    have hcd2 : class_definitions (xs ++ Stmt.classDef cn cd (bs ++ cs) :: ys)
        = class_definitions xs ++ (cn, cd, bs ++ cs) :: class_definitions ys := by
      simp [class_definitions, List.filterMap_append, List.filterMap_cons]
    have hcc : classify_classes (class_definitions xs
          ++ (cn, cd, bs ++ Stmt.asyncFunctionDef f :: cs) :: class_definitions ys)
        = classify_classes (class_definitions xs
          ++ (cn, cd, bs ++ cs) :: class_definitions ys) :=
      classify_classes_eq_of_proj _ _ (by simp)
    have hmd : method_definitions (class_definitions xs
          ++ (cn, cd, bs ++ Stmt.asyncFunctionDef f :: cs) :: class_definitions ys)
        = method_definitions (class_definitions xs
          ++ (cn, cd, bs ++ cs) :: class_definitions ys) := by
      rw [method_definitions_append, method_definitions_append]
      have e1 : method_definitions
          ((cn, cd, bs ++ Stmt.asyncFunctionDef f :: cs) :: class_definitions ys)
          = function_definitions (bs ++ Stmt.asyncFunctionDef f :: cs)
            ++ method_definitions (class_definitions ys) := by
        simp [method_definitions, List.flatMap_cons]
      have e2 : method_definitions ((cn, cd, bs ++ cs) :: class_definitions ys)
          = function_definitions (bs ++ cs) ++ method_definitions (class_definitions ys) := by
        simp [method_definitions, List.flatMap_cons]
      rw [e1, e2, hfb]
    rw [classify_module_def, classify_module_def, hf, hcd1, hcd2, hcc, hmd]

end ExampleCoverage
